import Mathlib

/-!
# Verification of the tinyblake BLAKE2b library

Shallow embedding of the tinyblake sources (`src/src/backend/blake2b_portable.cpp`,
`src/src/blake2b.cpp`, `src/src/hmac.cpp`, `src/src/pbkdf2.cpp`,
`src/src/secure_zero.cpp`) in Lean 4.

Machine words (`uint64_t`) are modelled as `Nat` with explicit reduction
modulo `2 ^ 64` where the C arithmetic wraps.  Byte buffers are `List Nat`
(each entry a byte value).  Fallible C functions returning `int` error codes
are modelled with `Option`: `none` is a non-zero (error) return, `some` is
success carrying the outputs.
-/

namespace Tinyblake

/-- `2 ^ 64`, the modulus of `uint64_t` arithmetic. -/
def M64 : Nat := 2 ^ 64

/-- Wrapping 64-bit addition (`a + b` on `uint64_t`). -/
def add64 (a b : Nat) : Nat := (a + b) % M64

/-- `rotr64` from `blake2b_portable.cpp`: `(x >> n) | (x << (64 - n))` with the
left shift wrapping at 64 bits. -/
def rotr64 (x n : Nat) : Nat := (x >>> n) ||| ((x <<< (64 - n)) % M64)

/-- The BLAKE2b IV table, exactly the `IV[8]` array of the source. -/
def IV : List Nat :=
  [0x6A09E667F3BCC908, 0xBB67AE8584CAA73B, 0x3C6EF372FE94F82B, 0xA54FF53A5F1D36F1,
   0x510E527FADE682D1, 0x9B05688C2B3E6C1F, 0x1F83D9ABFB41BD6B, 0x5BE0CD19137E2179]

/-- The 12-row `SIGMA[12][16]` schedule exactly as written in
`blake2b_portable.cpp` (rows 10 and 11 textually repeat rows 0 and 1). -/
def SIGMA : List (List Nat) :=
  [[0, 1, 2, 3, 4, 5, 6, 7, 8, 9, 10, 11, 12, 13, 14, 15],
   [14, 10, 4, 8, 9, 15, 13, 6, 1, 12, 0, 2, 11, 7, 5, 3],
   [11, 8, 12, 0, 5, 2, 15, 13, 10, 14, 3, 6, 7, 1, 9, 4],
   [7, 9, 3, 1, 13, 12, 11, 14, 2, 6, 5, 10, 4, 0, 15, 8],
   [9, 0, 5, 7, 2, 4, 10, 15, 14, 1, 11, 12, 6, 8, 3, 13],
   [2, 12, 6, 10, 0, 11, 8, 3, 4, 13, 7, 5, 15, 14, 1, 9],
   [12, 5, 1, 15, 14, 13, 4, 10, 0, 7, 6, 3, 9, 2, 8, 11],
   [13, 11, 7, 14, 12, 1, 3, 9, 5, 0, 15, 4, 8, 6, 2, 10],
   [6, 15, 14, 9, 11, 3, 0, 8, 12, 2, 13, 7, 1, 4, 10, 5],
   [10, 2, 8, 4, 7, 6, 1, 5, 15, 11, 9, 14, 3, 12, 13, 0],
   [0, 1, 2, 3, 4, 5, 6, 7, 8, 9, 10, 11, 12, 13, 14, 15],
   [14, 10, 4, 8, 9, 15, 13, 6, 1, 12, 0, 2, 11, 7, 5, 3]]

/-- The 10 distinct SIGMA rows of RFC 7693 §2.7, used by the claim-side
description of the schedule (rows 10 and 11 are obtained as `r % 10`). -/
def SIGMA10 : List (List Nat) :=
  [[0, 1, 2, 3, 4, 5, 6, 7, 8, 9, 10, 11, 12, 13, 14, 15],
   [14, 10, 4, 8, 9, 15, 13, 6, 1, 12, 0, 2, 11, 7, 5, 3],
   [11, 8, 12, 0, 5, 2, 15, 13, 10, 14, 3, 6, 7, 1, 9, 4],
   [7, 9, 3, 1, 13, 12, 11, 14, 2, 6, 5, 10, 4, 0, 15, 8],
   [9, 0, 5, 7, 2, 4, 10, 15, 14, 1, 11, 12, 6, 8, 3, 13],
   [2, 12, 6, 10, 0, 11, 8, 3, 4, 13, 7, 5, 15, 14, 1, 9],
   [12, 5, 1, 15, 14, 13, 4, 10, 0, 7, 6, 3, 9, 2, 8, 11],
   [13, 11, 7, 14, 12, 1, 3, 9, 5, 0, 15, 4, 8, 6, 2, 10],
   [6, 15, 14, 9, 11, 3, 0, 8, 12, 2, 13, 7, 1, 4, 10, 5],
   [10, 2, 8, 4, 7, 6, 1, 5, 15, 11, 9, 14, 3, 12, 13, 0]]

/-- `load_le64` from `internal/endian.h`: read 8 bytes starting at `off` as a
little-endian 64-bit word. -/
def load_le64 (bytes : List Nat) (off : Nat) : Nat :=
  bytes.getD off 0 + bytes.getD (off + 1) 0 * 2 ^ 8 + bytes.getD (off + 2) 0 * 2 ^ 16 +
    bytes.getD (off + 3) 0 * 2 ^ 24 + bytes.getD (off + 4) 0 * 2 ^ 32 +
    bytes.getD (off + 5) 0 * 2 ^ 40 + bytes.getD (off + 6) 0 * 2 ^ 48 +
    bytes.getD (off + 7) 0 * 2 ^ 56

/-- `store_le64` from `internal/endian.h`: write a 64-bit word as 8 bytes,
little-endian. -/
def store_le64 (v : Nat) : List Nat :=
  [v % 2 ^ 8, v / 2 ^ 8 % 2 ^ 8, v / 2 ^ 16 % 2 ^ 8, v / 2 ^ 24 % 2 ^ 8,
   v / 2 ^ 32 % 2 ^ 8, v / 2 ^ 40 % 2 ^ 8, v / 2 ^ 48 % 2 ^ 8, v / 2 ^ 56 % 2 ^ 8]

/-- The `m[16]` message schedule of `blake2b_compress_portable`: the block read
as 16 little-endian 64-bit words. -/
def msgWords (block : List Nat) : List Nat :=
  (List.range 16).map (fun i => load_le64 block (8 * i))

/-- The `G` macro of `blake2b_portable.cpp`, applied to the quarter-state
`(a, b, c, d)`; `s` is the SIGMA row of the current round and `i` the index of
the G application within the round. -/
def Gmix (m s : List Nat) (i : Nat) (a b c d : Nat) : Nat × Nat × Nat × Nat :=
  let a := add64 (add64 a b) (m.getD (s.getD (2 * i) 0) 0)
  let d := rotr64 (d ^^^ a) 32
  let c := add64 c d
  let b := rotr64 (b ^^^ c) 24
  let a := add64 (add64 a b) (m.getD (s.getD (2 * i + 1) 0) 0)
  let d := rotr64 (d ^^^ a) 16
  let c := add64 c d
  let b := rotr64 (b ^^^ c) 63
  (a, b, c, d)

/-- The `ROUND` macro of `blake2b_portable.cpp`: four column G-mixes followed by
four diagonal G-mixes, with the message indices drawn from the row `s`. -/
def roundWith (m s v : List Nat) : List Nat :=
  match v with
  | [v0, v1, v2, v3, v4, v5, v6, v7, v8, v9, v10, v11, v12, v13, v14, v15] =>
    match Gmix m s 0 v0 v4 v8 v12 with
    | (v0, v4, v8, v12) =>
    match Gmix m s 1 v1 v5 v9 v13 with
    | (v1, v5, v9, v13) =>
    match Gmix m s 2 v2 v6 v10 v14 with
    | (v2, v6, v10, v14) =>
    match Gmix m s 3 v3 v7 v11 v15 with
    | (v3, v7, v11, v15) =>
    match Gmix m s 4 v0 v5 v10 v15 with
    | (v0, v5, v10, v15) =>
    match Gmix m s 5 v1 v6 v11 v12 with
    | (v1, v6, v11, v12) =>
    match Gmix m s 6 v2 v7 v8 v13 with
    | (v2, v7, v8, v13) =>
    match Gmix m s 7 v3 v4 v9 v14 with
    | (v3, v4, v9, v14) =>
    [v0, v1, v2, v3, v4, v5, v6, v7, v8, v9, v10, v11, v12, v13, v14, v15]
  | _ => v

/-- The initial working vector `v[16]` of `blake2b_compress_portable`
(source lines 98-108). -/
def initV (h : List Nat) (t0 t1 : Nat) (last : Bool) : List Nat :=
  h ++ [IV.getD 0 0, IV.getD 1 0, IV.getD 2 0, IV.getD 3 0,
        IV.getD 4 0 ^^^ t0, IV.getD 5 0 ^^^ t1,
        if last then IV.getD 6 0 ^^^ 0xFFFFFFFFFFFFFFFF else IV.getD 6 0,
        IV.getD 7 0]

/-- `ROUND(0); ... ROUND(11);` of `blake2b_compress_portable`, each round
indexing the 12-row source SIGMA table. -/
def rounds12 (m v : List Nat) : List Nat :=
  roundWith m (SIGMA.getD 11 []) (roundWith m (SIGMA.getD 10 [])
    (roundWith m (SIGMA.getD 9 []) (roundWith m (SIGMA.getD 8 [])
      (roundWith m (SIGMA.getD 7 []) (roundWith m (SIGMA.getD 6 [])
        (roundWith m (SIGMA.getD 5 []) (roundWith m (SIGMA.getD 4 [])
          (roundWith m (SIGMA.getD 3 []) (roundWith m (SIGMA.getD 2 [])
            (roundWith m (SIGMA.getD 1 []) (roundWith m (SIGMA.getD 0 []) v)))))))))))

/-- The final feedback `state[i] ^= v[i] ^ v[i+8]` of
`blake2b_compress_portable`. -/
def feedback (h v : List Nat) : List Nat :=
  (List.range 8).map (fun i => h.getD i 0 ^^^ v.getD i 0 ^^^ v.getD (i + 8) 0)

/-- `blake2b_compress_portable` from `blake2b_portable.cpp`: the scalar
reference compression function. -/
def blake2b_compress_portable (h block : List Nat) (t0 t1 : Nat) (last : Bool) :
    List Nat :=
  feedback h (rounds12 (msgWords block) (initV h t0 t1 last))

/-! ### Claim-side compression (from the spec's words, for claim C1)

The spec describes the same computation but with the schedule given as the
10-row SIGMA table indexed by `round % 10`, and `v[14]` given as the 64-bit
complement of `IV[6]` when the last flag is set. -/

/-- Working vector as the spec words it: `v[14]` is `IV[6]` *complemented*
(within 64 bits) exactly when the last flag is set. -/
def initVSpec (h : List Nat) (t0 t1 : Nat) (last : Bool) : List Nat :=
  h ++ [IV.getD 0 0, IV.getD 1 0, IV.getD 2 0, IV.getD 3 0,
        IV.getD 4 0 ^^^ t0, IV.getD 5 0 ^^^ t1,
        if last then (2 ^ 64 - 1) - IV.getD 6 0 else IV.getD 6 0,
        IV.getD 7 0]

/-- Twelve rounds with message indices drawn from the 10-row SIGMA schedule,
row `r % 10` for round `r`, as the spec words it. -/
def rounds12Spec (m v : List Nat) : List Nat :=
  roundWith m (SIGMA10.getD (11 % 10) []) (roundWith m (SIGMA10.getD (10 % 10) [])
    (roundWith m (SIGMA10.getD (9 % 10) []) (roundWith m (SIGMA10.getD (8 % 10) [])
      (roundWith m (SIGMA10.getD (7 % 10) []) (roundWith m (SIGMA10.getD (6 % 10) [])
        (roundWith m (SIGMA10.getD (5 % 10) []) (roundWith m (SIGMA10.getD (4 % 10) [])
          (roundWith m (SIGMA10.getD (3 % 10) []) (roundWith m (SIGMA10.getD (2 % 10) [])
            (roundWith m (SIGMA10.getD (1 % 10) []) (roundWith m (SIGMA10.getD (0 % 10) []) v)))))))))))

/-- The compression function exactly as the spec sentence describes it. -/
def blake2b_compress_spec (h block : List Nat) (t0 t1 : Nat) (last : Bool) :
    List Nat :=
  feedback h (rounds12Spec (msgWords block) (initVSpec h t0 t1 last))

lemma rounds12_eq_spec (m v : List Nat) : rounds12 m v = rounds12Spec m v := by
  have h0 : SIGMA.getD 0 [] = SIGMA10.getD (0 % 10) [] := rfl
  have h1 : SIGMA.getD 1 [] = SIGMA10.getD (1 % 10) [] := rfl
  have h2 : SIGMA.getD 2 [] = SIGMA10.getD (2 % 10) [] := rfl
  have h3 : SIGMA.getD 3 [] = SIGMA10.getD (3 % 10) [] := rfl
  have h4 : SIGMA.getD 4 [] = SIGMA10.getD (4 % 10) [] := rfl
  have h5 : SIGMA.getD 5 [] = SIGMA10.getD (5 % 10) [] := rfl
  have h6 : SIGMA.getD 6 [] = SIGMA10.getD (6 % 10) [] := rfl
  have h7 : SIGMA.getD 7 [] = SIGMA10.getD (7 % 10) [] := rfl
  have h8 : SIGMA.getD 8 [] = SIGMA10.getD (8 % 10) [] := rfl
  have h9 : SIGMA.getD 9 [] = SIGMA10.getD (9 % 10) [] := rfl
  have h10 : SIGMA.getD 10 [] = SIGMA10.getD (10 % 10) [] := rfl
  have h11 : SIGMA.getD 11 [] = SIGMA10.getD (11 % 10) [] := rfl
  rw [rounds12, rounds12Spec, h0, h1, h2, h3, h4, h5, h6, h7, h8, h9, h10, h11]

lemma initV_eq_spec (h : List Nat) (t0 t1 : Nat) (last : Bool) :
    initV h t0 t1 last = initVSpec h t0 t1 last := by
  cases last <;> rfl

/-! ### The BLAKE2b streaming state machine (`src/src/blake2b.cpp`)

`tinyblake_blake2b_state` holds the chaining value `h[8]`, the two counter
words `t[2]`, the 128-byte residual buffer `buf` with its fill level `buflen`,
and the cached digest length `outlen`.  The buffer is modelled as the list of
its `buflen` live bytes (bytes past `buflen` in the C array are dead: `final`
zero-pads from `buflen` before they are ever read). -/

@[ext]
structure Blake2bState where
  h : List Nat
  t0 : Nat
  t1 : Nat
  buf : List Nat
  outlen : Nat
  deriving DecidableEq, Repr

/-- The counter advance used before each compression and at finalisation:
`t[0] += n; if (t[0] < n) t[1]++;` in `uint64_t` arithmetic. -/
def advanceT (S : Blake2bState) (n : Nat) : Blake2bState :=
  let t0 := (S.t0 + n) % M64
  { S with t0 := t0, t1 := if t0 < n then (S.t1 + 1) % M64 else S.t1 }

/-- `compress_block` from `blake2b.cpp`: run the (dispatched) compression over
one 128-byte block.  All backends are bit-exact with the portable reference,
which is the one embedded here. -/
def compress_block (S : Blake2bState) (block : List Nat) (last : Bool) :
    Blake2bState :=
  { S with h := blake2b_compress_portable S.h block S.t0 S.t1 last }

/-- `build_default_param` from `blake2b.cpp`: digest length, key length,
fanout = depth = 1, all other 60 bytes zero. -/
def build_default_param (outlen keylen : Nat) : List Nat :=
  [outlen, keylen, 1, 1] ++ List.replicate 60 0

/-- `init_from_param` from `blake2b.cpp`: reject unless `param[0] ∈ 1..64`,
then zero the state and set `h[i] = IV[i] ^ load_le64(param + 8*i)`. -/
def init_from_param (param : List Nat) : Option Blake2bState :=
  if param.getD 0 0 = 0 ∨ param.getD 0 0 > 64 then none
  else some
    { h := (List.range 8).map (fun i => IV.getD i 0 ^^^ load_le64 param (8 * i))
      t0 := 0, t1 := 0, buf := [], outlen := param.getD 0 0 }

/-- `tinyblake_blake2b_init`. -/
def tinyblake_blake2b_init (outlen : Nat) : Option Blake2bState :=
  if outlen = 0 ∨ outlen > 64 then none
  else init_from_param (build_default_param outlen 0)

/-- `tinyblake_blake2b_init_param`: interpret a caller-supplied 64-byte
parameter block directly (the null-pointer guards are not representable). -/
def tinyblake_blake2b_init_param (param : List Nat) : Option Blake2bState :=
  init_from_param param

/-- One iteration body of update's `while (inlen > 128)` loop: advance the
counter by 128 and compress a non-final block. -/
def absorb (S : Blake2bState) (block : List Nat) : Blake2bState :=
  compress_block (advanceT S 128) block false

/-- The `while (inlen > 128)` loop of `tinyblake_blake2b_update`, written with
explicit fuel (each iteration consumes 128 bytes, so fuel `input.length`
always suffices; `update_loop_run` below characterises the result). -/
def update_loop : Nat → Blake2bState → List Nat → Blake2bState × List Nat
  | 0, S, rem => (S, rem)
  | fuel + 1, S, rem =>
    if rem.length > 128 then
      update_loop fuel (absorb S (rem.take 128)) (rem.drop 128)
    else (S, rem)

/-- The "If buffer has data, try to fill it" step of `tinyblake_blake2b_update`
(source lines 176-193): returns the state after the optional fill-and-flush
together with the input bytes still to process. -/
def update_fill (S : Blake2bState) (input : List Nat) : Blake2bState × List Nat :=
  if 0 < S.buf.length then
    if input.length > 128 - S.buf.length then
      ({ absorb { S with buf := S.buf ++ input.take (128 - S.buf.length) }
           (S.buf ++ input.take (128 - S.buf.length)) with buf := [] },
       input.drop (128 - S.buf.length))
    else ({ S with buf := S.buf ++ input }, [])
  else (S, input)

/-- The tail of `tinyblake_blake2b_update` (source lines 195-211): run the
full-block loop, then move any remaining bytes into the buffer. -/
def update_tail (Sr : Blake2bState × List Nat) : Blake2bState :=
  if 0 < (update_loop Sr.2.length Sr.1 Sr.2).2.length then
    { (update_loop Sr.2.length Sr.1 Sr.2).1 with
      buf := (update_loop Sr.2.length Sr.1 Sr.2).2 }
  else (update_loop Sr.2.length Sr.1 Sr.2).1

/-- `tinyblake_blake2b_update`.  The null-pointer guard on `in` is not
representable (the input is a value here); the remaining guards and the
buffering logic follow the source line by line. -/
def tinyblake_blake2b_update (S : Blake2bState) (input : List Nat) :
    Option Blake2bState :=
  if S.buf.length > 128 then none
  else if input.length = 0 then some S
  else some (update_tail (update_fill S input))

/-- The state left behind by `tinyblake_secure_zero(state, sizeof(*state))`:
every field zero. -/
def wipedState : Blake2bState :=
  { h := List.replicate 8 0, t0 := 0, t1 := 0, buf := [], outlen := 0 }

/-- `tinyblake_blake2b_final`: reject if the output capacity is below the
configured digest length; otherwise advance the counter by the residual
length, zero-pad the residual block, compress with the last flag, emit the
first `outlen` chaining bytes little-endian, and wipe the state.  Returns the
emitted digest together with the wiped state. -/
def tinyblake_blake2b_final (S : Blake2bState) (outcap : Nat) :
    Option (List Nat × Blake2bState) :=
  if outcap < S.outlen then none
  else
    let S1 := advanceT S S.buf.length
    let block := S.buf ++ List.replicate (128 - S.buf.length) 0
    let S2 := compress_block S1 block true
    let digest := ((List.range 8).map (fun i => store_le64 (S2.h.getD i 0))).flatten
    some (digest.take S2.outlen, wipedState)

/-- `tinyblake_blake2b_init_key`: validate both lengths, initialise with the
keyed parameter block, then absorb the key zero-padded to one 128-byte block
through `update`. -/
def tinyblake_blake2b_init_key (outlen : Nat) (key : List Nat) :
    Option Blake2bState :=
  if outlen = 0 ∨ outlen > 64 then none
  else if key.length = 0 ∨ key.length > 64 then none
  else
    (init_from_param (build_default_param outlen key.length)).bind fun S =>
      tinyblake_blake2b_update S (key ++ List.replicate (128 - key.length) 0)

/-- `tinyblake_blake2b`, the one-shot entry point: keyed or unkeyed init, one
update, then final. -/
def tinyblake_blake2b (outlen : Nat) (input key : List Nat) :
    Option (List Nat) :=
  (if key.length > 0 then tinyblake_blake2b_init_key outlen key
   else tinyblake_blake2b_init outlen).bind fun S =>
    (tinyblake_blake2b_update S input).bind fun S1 =>
      (tinyblake_blake2b_final S1 outlen).map Prod.fst

/-! ### Canonical states reached by init + updates

After absorbing a total byte stream `P` (in any chunking), the state is a
function of `P` alone: the first `128 * nfull P.length` bytes have been
compressed (blockwise, counter advancing by 128 before each call) and the
remaining `1..128` bytes (`0` when `P = []`) sit in the residual buffer.
`nfull n = (n - 1) / 128` is the number of compress calls the update path has
performed after `n` bytes: update always keeps at least one byte back for
`final`, so a stream of exactly `k` blocks compresses only `k - 1` of them. -/

/-- Number of non-final compressions performed after absorbing `n` bytes. -/
def nfull (n : Nat) : Nat := (n - 1) / 128

/-- The first `k` 128-byte blocks of a byte list. -/
def toBlocksN : Nat → List Nat → List (List Nat)
  | 0, _ => []
  | k + 1, l => l.take 128 :: toBlocksN k (l.drop 128)

/-- The canonical state after initial state `S0` has absorbed the byte
stream `P` through the update path. -/
def mkFrom (S0 : Blake2bState) (P : List Nat) : Blake2bState :=
  { (toBlocksN (nfull P.length) P).foldl absorb S0 with
    buf := P.drop (128 * nfull P.length) }

lemma nfull_mul_le (n : Nat) : 128 * nfull n ≤ n := by
  unfold nfull; omega

lemma sub_nfull_le (n : Nat) : n - 128 * nfull n ≤ 128 := by
  unfold nfull; omega

lemma sub_nfull_pos (n : Nat) (h : 1 ≤ n) : 1 ≤ n - 128 * nfull n := by
  unfold nfull; omega

lemma absorb_buf (S : Blake2bState) (X b : List Nat) :
    absorb { S with buf := X } b = { absorb S b with buf := X } := rfl

lemma absorb_buf_field (S : Blake2bState) (b : List Nat) :
    (absorb S b).buf = S.buf := rfl

lemma absorb_outlen_field (S : Blake2bState) (b : List Nat) :
    (absorb S b).outlen = S.outlen := rfl

lemma foldl_absorb_buf (bs : List (List Nat)) (S : Blake2bState) (X : List Nat) :
    bs.foldl absorb { S with buf := X } = { bs.foldl absorb S with buf := X } := by
  induction bs generalizing S with
  | nil => rfl
  | cons b bs ih => simp only [List.foldl_cons, absorb_buf, ih]

lemma foldl_absorb_buf_field (bs : List (List Nat)) (S : Blake2bState) :
    (bs.foldl absorb S).buf = S.buf := by
  induction bs generalizing S with
  | nil => rfl
  | cons b bs ih => simp only [List.foldl_cons, ih, absorb_buf_field]

lemma foldl_absorb_outlen_field (bs : List (List Nat)) (S : Blake2bState) :
    (bs.foldl absorb S).outlen = S.outlen := by
  induction bs generalizing S with
  | nil => rfl
  | cons b bs ih => simp only [List.foldl_cons, ih, absorb_outlen_field]

lemma mkFrom_buf (S0 : Blake2bState) (P : List Nat) :
    (mkFrom S0 P).buf = P.drop (128 * nfull P.length) := rfl

lemma mkFrom_buf_len (S0 : Blake2bState) (P : List Nat) :
    (mkFrom S0 P).buf.length = P.length - 128 * nfull P.length := by
  simp [mkFrom_buf]

lemma toBlocksN_take (k : Nat) (A B : List Nat) (h : 128 * k ≤ A.length) :
    toBlocksN k (A ++ B) = toBlocksN k A := by
  induction k generalizing A with
  | zero => rfl
  | succ k ih =>
    have h128 : 128 ≤ A.length := by omega
    rw [toBlocksN, toBlocksN, List.take_append_of_le_length h128,
      List.drop_append_of_le_length h128, ih]
    simp only [List.length_drop]; omega

lemma toBlocksN_split (a b : Nat) (L : List Nat) :
    toBlocksN (a + b) L = toBlocksN a L ++ toBlocksN b (L.drop (128 * a)) := by
  induction a generalizing L with
  | zero => simp [toBlocksN]
  | succ a ih =>
    have hs : a + 1 + b = (a + b) + 1 := by omega
    rw [hs, toBlocksN, toBlocksN, ih, List.drop_drop]
    have : 128 + 128 * a = 128 * (a + 1) := by ring
    simp [this]

/-- Closed form of the `while (inlen > 128)` loop: with enough fuel it absorbs
the first `nfull rem.length` blocks and returns the rest. -/
lemma update_loop_run (fuel : Nat) (S : Blake2bState) (rem : List Nat)
    (hfuel : rem.length ≤ fuel) :
    update_loop fuel S rem =
      ((toBlocksN (nfull rem.length) rem).foldl absorb S,
        rem.drop (128 * nfull rem.length)) := by
  induction fuel generalizing S rem with
  | zero =>
    have : rem = [] := List.length_eq_zero.mp (by omega)
    subst this
    simp [update_loop, nfull, toBlocksN]
  | succ fuel ih =>
    by_cases h : rem.length > 128
    · rw [update_loop, if_pos h]
      have hlen : (rem.drop 128).length ≤ fuel := by
        simp only [List.length_drop]; omega
      rw [ih _ _ hlen]
      have hdrop : (rem.drop 128).length = rem.length - 128 := by
        simp [List.length_drop]
      have hk : nfull rem.length = nfull (rem.length - 128) + 1 := by
        unfold nfull; omega
      rw [hdrop, hk, toBlocksN, List.foldl_cons, List.drop_drop]
      have : 128 + 128 * nfull (rem.length - 128) =
          128 * (nfull (rem.length - 128) + 1) := by ring
      rw [this]
    · rw [update_loop, if_neg h]
      have hk : nfull rem.length = 0 := by unfold nfull; omega
      simp [hk, toBlocksN]

lemma update_fill_empty (S : Blake2bState) (c : List Nat) (hb : S.buf = []) :
    update_fill S c = (S, c) := by
  unfold update_fill
  rw [if_neg]
  simp [hb]

lemma update_fill_small (S : Blake2bState) (c : List Nat) (hb : 0 < S.buf.length)
    (hs : ¬ (c.length > 128 - S.buf.length)) :
    update_fill S c = ({ S with buf := S.buf ++ c }, []) := by
  unfold update_fill
  rw [if_pos hb, if_neg hs]

lemma update_fill_big (S : Blake2bState) (c : List Nat) (hb : 0 < S.buf.length)
    (hs : c.length > 128 - S.buf.length) :
    update_fill S c =
      ({ absorb { S with buf := S.buf ++ c.take (128 - S.buf.length) }
           (S.buf ++ c.take (128 - S.buf.length)) with buf := [] },
       c.drop (128 - S.buf.length)) := by
  unfold update_fill
  rw [if_pos hb, if_pos hs]

lemma update_tail_nil (S : Blake2bState) : update_tail (S, []) = S := by
  unfold update_tail
  simp [update_loop]

lemma update_tail_pos (S : Blake2bState) (rem : List Nat) (h1 : 1 ≤ rem.length) :
    update_tail (S, rem) =
      { (toBlocksN (nfull rem.length) rem).foldl absorb S with
        buf := rem.drop (128 * nfull rem.length) } := by
  unfold update_tail
  rw [update_loop_run _ _ _ (le_refl _)]
  have hpos : 0 < (rem.drop (128 * nfull rem.length)).length := by
    simp only [List.length_drop]
    have := sub_nfull_pos rem.length h1
    omega
  simp only [if_pos hpos]

lemma mkFrom_nil (S0 : Blake2bState) : mkFrom S0 [] = { S0 with buf := [] } := rfl

/-- The update homomorphism: one `update` call on the canonical state of `P`
yields the canonical state of `P ++ c`, for every chunk `c` (empty chunks,
chunks crossing the 128-byte boundary, and chunks ending on it included). -/
lemma update_mkFrom (S0 : Blake2bState) (P c : List Nat) :
    tinyblake_blake2b_update (mkFrom S0 P) c = some (mkFrom S0 (P ++ c)) := by
  have hble := sub_nfull_le P.length
  have hkle := nfull_mul_le P.length
  have hguard : ¬ ((mkFrom S0 P).buf.length > 128) := by
    rw [mkFrom_buf_len]; omega
  rcases eq_or_ne c [] with rfl | hc
  · rw [tinyblake_blake2b_update, if_neg hguard]
    simp
  have hclen : ¬ (c.length = 0) := by simpa using hc
  have hc1 : 1 ≤ c.length := by omega
  rw [tinyblake_blake2b_update, if_neg hguard, if_neg hclen]
  rcases eq_or_ne P [] with rfl | hP
  · -- Case A: empty stream so far, buffer empty: straight into the block loop.
    rw [mkFrom_nil, update_fill_empty _ _ rfl, update_tail_pos _ _ hc1,
      foldl_absorb_buf]
    simp [mkFrom]
  · have hP1 : 1 ≤ P.length := List.length_pos.mpr hP
    have hr1 : 1 ≤ P.length - 128 * nfull P.length := sub_nfull_pos _ hP1
    have hbpos : 0 < (mkFrom S0 P).buf.length := by rw [mkFrom_buf_len]; omega
    by_cases hbig : c.length > 128 - (mkFrom S0 P).buf.length
    · -- Case C: the chunk overflows the residual buffer: fill, flush, loop.
      rw [update_fill_big _ _ hbpos hbig]
      rw [mkFrom_buf_len] at hbig
      have hc'1 : 1 ≤ (c.drop (128 - (mkFrom S0 P).buf.length)).length := by
        rw [mkFrom_buf_len]
        simp only [List.length_drop]
        omega
      rw [update_tail_pos _ _ hc'1]
      rw [mkFrom_buf_len, mkFrom_buf]
      have hRlen : (P.drop (128 * nfull P.length)).length =
          P.length - 128 * nfull P.length := by
        simp [List.length_drop]
      have hc'len : (c.drop (128 - (P.length - 128 * nfull P.length))).length =
          c.length - (128 - (P.length - 128 * nfull P.length)) := by
        simp [List.length_drop]
      rw [hc'len]
      -- the fill-and-flush state equals `absorb F B1` with an emptied buffer,
      -- definitionally (the dead buffer content never feeds the compression)
      show some
          ({ (toBlocksN (nfull (c.length - (128 - (P.length - 128 * nfull P.length))))
              (c.drop (128 - (P.length - 128 * nfull P.length)))).foldl absorb
            { absorb ((toBlocksN (nfull P.length) P).foldl absorb S0)
                (P.drop (128 * nfull P.length) ++
                  c.take (128 - (P.length - 128 * nfull P.length))) with buf := [] } with
            buf := (c.drop (128 - (P.length - 128 * nfull P.length))).drop
              (128 * nfull (c.length - (128 - (P.length - 128 * nfull P.length)))) })
        = some (mkFrom S0 (P ++ c))
      rw [foldl_absorb_buf]
      have hk' : nfull (P.length + c.length) =
          nfull P.length +
            (1 + nfull (c.length - (128 - (P.length - 128 * nfull P.length)))) := by
        unfold nfull at *
        omega
      rw [mkFrom, List.length_append, hk']
      rw [toBlocksN_split (nfull P.length)
        (1 + nfull (c.length - (128 - (P.length - 128 * nfull P.length)))) (P ++ c)]
      rw [toBlocksN_take _ _ _ hkle, List.drop_append_of_le_length hkle]
      rw [show 1 + nfull (c.length - (128 - (P.length - 128 * nfull P.length))) =
        nfull (c.length - (128 - (P.length - 128 * nfull P.length))) + 1 from by omega]
      rw [toBlocksN]
      rw [List.take_append_eq_append_take, List.drop_append_eq_append_drop]
      rw [List.take_of_length_le (by rw [hRlen]; omega :
        (P.drop (128 * nfull P.length)).length ≤ 128)]
      rw [List.drop_eq_nil_iff.mpr (by rw [hRlen]; omega :
        (P.drop (128 * nfull P.length)).length ≤ 128)]
      rw [hRlen, List.nil_append]
      rw [List.foldl_append, List.foldl_cons]
      rw [List.drop_drop]
      rw [show 128 * (nfull P.length +
            (nfull (c.length - (128 - (P.length - 128 * nfull P.length))) + 1)) =
          P.length + ((128 - (P.length - 128 * nfull P.length)) +
            128 * nfull (c.length - (128 - (P.length - 128 * nfull P.length))))
        from by omega]
      rw [List.drop_append]

    · -- Case B: the chunk fits in the residual buffer: append only.
      rw [update_fill_small _ _ hbpos hbig]
      rw [update_tail_nil]
      rw [mkFrom_buf_len] at hbig
      rw [mkFrom_buf]
      have hkk : nfull (P ++ c).length = nfull P.length := by
        rw [List.length_append]
        unfold nfull at *
        omega
      simp only [mkFrom, hkk]
      rw [toBlocksN_take _ _ _ hkle, List.drop_append_of_le_length hkle]

/-! ### The incremental API composed over a chunk sequence -/

/-- Apply `tinyblake_blake2b_update` once per chunk, in order, propagating the
first failure. -/
def updateChunks (S : Blake2bState) (chunks : List (List Nat)) :
    Option Blake2bState :=
  chunks.foldl (fun acc c => acc.bind fun T => tinyblake_blake2b_update T c)
    (some S)

/-- The incremental digest: `init`, one `update` per chunk, then `final`. -/
def incrementalHash (outlen : Nat) (chunks : List (List Nat)) :
    Option (List Nat) :=
  (tinyblake_blake2b_init outlen).bind fun S =>
    (updateChunks S chunks).bind fun S1 =>
      (tinyblake_blake2b_final S1 outlen).map Prod.fst

lemma updateChunks_mkFrom (S0 : Blake2bState) (P : List Nat)
    (chunks : List (List Nat)) :
    updateChunks (mkFrom S0 P) chunks =
      some (mkFrom S0 (P ++ chunks.flatten)) := by
  induction chunks generalizing P with
  | nil => simp [updateChunks]
  | cons c cs ih =>
    unfold updateChunks at ih ⊢
    rw [List.foldl_cons, Option.some_bind, update_mkFrom, ih (P ++ c)]
    simp

lemma init_some (outlen : Nat) (h1 : 1 ≤ outlen) (h64 : outlen ≤ 64) :
    ∃ S, tinyblake_blake2b_init outlen = some S ∧ S.buf = [] := by
  unfold tinyblake_blake2b_init init_from_param
  rw [if_neg (by omega)]
  have hp : (build_default_param outlen 0).getD 0 0 = outlen := rfl
  rw [hp, if_neg (by omega)]
  exact ⟨_, rfl, rfl⟩

lemma mkFrom_self (S : Blake2bState) (hb : S.buf = []) : mkFrom S [] = S := by
  rw [mkFrom_nil]
  cases S
  simp_all

/-! ### Claim theorems C1-C3 -/

/-- C1.  For every chaining value, block, counters and last flag, the portable
compression function computes exactly what the spec sentence describes: the
block read as 16 little-endian words, the working vector built from `H`, the
IV, the counter xors and the conditionally complemented `IV[6]`, 12 rounds of
G-mixing with indices from the 10-row SIGMA schedule extended by repetition of
rows 0 and 1, and the `H[i] ^ v[i] ^ v[i+8]` feedback, all modulo `2 ^ 64`. -/
theorem compress_portable_matches_spec (h block : List Nat) (t0 t1 : Nat)
    (last : Bool) :
    blake2b_compress_portable h block t0 t1 last =
      blake2b_compress_spec h block t0 t1 last := by
  unfold blake2b_compress_portable blake2b_compress_spec
  rw [rounds12_eq_spec, initV_eq_spec]

set_option maxRecDepth 100000 in
/-- C2.  The one-shot unkeyed `tinyblake_blake2b` with `outlen = 64` on the
ASCII bytes of "abc" succeeds and produces the RFC 7693 known-answer
digest. -/
theorem blake2b_abc_known_answer :
    tinyblake_blake2b 64 [0x61, 0x62, 0x63] [] =
      some [0xba, 0x80, 0xa5, 0x3f, 0x98, 0x1c, 0x4d, 0x0d,
            0x6a, 0x27, 0x97, 0xb6, 0x9f, 0x12, 0xf6, 0xe9,
            0x4c, 0x21, 0x2f, 0x14, 0x68, 0x5a, 0xc4, 0xb7,
            0x4b, 0x12, 0xbb, 0x6f, 0xdb, 0xff, 0xa2, 0xd1,
            0x7d, 0x87, 0xc5, 0x39, 0x2a, 0xab, 0x79, 0x2d,
            0xc2, 0x52, 0xd5, 0xde, 0x45, 0x33, 0xcc, 0x95,
            0x18, 0xd3, 0x8a, 0xa8, 0xdb, 0xf1, 0x92, 0x5a,
            0xb9, 0x23, 0x86, 0xed, 0xd4, 0x00, 0x99, 0x23] := by
  decide

/-- C3.  For every output length in 1..64 and every partition of a message
into chunks (zero-length chunks and chunks crossing or ending on the 128-byte
boundary included), init + one update per chunk + final produces the same
digest as the one-shot unkeyed call on the concatenated message. -/
theorem incremental_eq_one_shot (outlen : Nat) (chunks : List (List Nat))
    (h1 : 1 ≤ outlen) (h64 : outlen ≤ 64) :
    incrementalHash outlen chunks =
      tinyblake_blake2b outlen chunks.flatten [] := by
  obtain ⟨S, hS, hbuf⟩ := init_some outlen h1 h64
  unfold incrementalHash tinyblake_blake2b
  rw [if_neg (by simp), hS, Option.some_bind, Option.some_bind]
  have hmk := mkFrom_self S hbuf
  rw [← hmk, updateChunks_mkFrom, update_mkFrom]

/-- Witness for C3 at a concrete partition: the empty chunk, a chunk, and a
boundary-crossing chunk of a 150-byte message. -/
theorem incremental_eq_one_shot_witness :
    (1 ≤ 64 ∧ (64 : Nat) ≤ 64) ∧
      incrementalHash 64 [[], List.replicate 100 0x41, List.replicate 50 0x42] =
        tinyblake_blake2b 64
          ([[], List.replicate 100 0x41, List.replicate 50 0x42] :
            List (List Nat)).flatten [] :=
  ⟨⟨by decide, by decide⟩,
    incremental_eq_one_shot 64 [[], List.replicate 100 0x41, List.replicate 50 0x42]
      (by decide) (by decide)⟩

/-! ### Counter arithmetic and buffer bounds (claims C4, C5) -/

lemma advanceT_t0 (S : Blake2bState) (n : Nat) :
    (advanceT S n).t0 = (S.t0 + n) % M64 := rfl

lemma advanceT_t1 (S : Blake2bState) (n : Nat) :
    (advanceT S n).t1 =
      if (S.t0 + n) % M64 < n then (S.t1 + 1) % M64 else S.t1 := rfl

lemma advanceT_counter (S : Blake2bState) (n : Nat) (ht0 : S.t0 < M64)
    (ht1 : S.t1 < M64) (hn : n < M64) :
    (advanceT S n).t0 < M64 ∧ (advanceT S n).t1 < M64 ∧
      ((advanceT S n).t1 * 2 ^ 64 + (advanceT S n).t0) % 2 ^ 128 =
        (S.t1 * 2 ^ 64 + S.t0 + n) % 2 ^ 128 := by
  rw [advanceT_t0, advanceT_t1]
  unfold M64 at *
  split_ifs with hw
  · refine ⟨by omega, by omega, ?_⟩
    omega
  · refine ⟨by omega, by omega, ?_⟩
    omega

lemma absorb_t0 (S : Blake2bState) (b : List Nat) :
    (absorb S b).t0 = (advanceT S 128).t0 := rfl

lemma absorb_t1 (S : Blake2bState) (b : List Nat) :
    (absorb S b).t1 = (advanceT S 128).t1 := rfl

lemma foldl_absorb_counter (bs : List (List Nat)) (S : Blake2bState)
    (ht0 : S.t0 < M64) (ht1 : S.t1 < M64) :
    (bs.foldl absorb S).t0 < M64 ∧ (bs.foldl absorb S).t1 < M64 ∧
      ((bs.foldl absorb S).t1 * 2 ^ 64 + (bs.foldl absorb S).t0) % 2 ^ 128 =
        (S.t1 * 2 ^ 64 + S.t0 + 128 * bs.length) % 2 ^ 128 := by
  induction bs generalizing S with
  | nil =>
    refine ⟨ht0, ht1, ?_⟩
    simp
  | cons b bs ih =>
    rw [List.foldl_cons]
    obtain ⟨h0, h1, hmod⟩ :=
      advanceT_counter S 128 ht0 ht1 (by unfold M64; norm_num)
    obtain ⟨f0, f1, fmod⟩ := ih (absorb S b) (absorb_t0 S b ▸ h0) (absorb_t1 S b ▸ h1)
    refine ⟨f0, f1, ?_⟩
    rw [fmod, absorb_t0, absorb_t1, List.length_cons]
    unfold M64 at *
    omega

lemma toBlocksN_length (k : Nat) (l : List Nat) : (toBlocksN k l).length = k := by
  induction k generalizing l with
  | zero => rfl
  | succ k ih => simp [toBlocksN, ih]

/-- Strengthened init characterisation: the state produced by a valid
`tinyblake_blake2b_init` has zeroed counters, an empty buffer, and caches the
requested digest length. -/
lemma init_fields (outlen : Nat) (S : Blake2bState)
    (h : tinyblake_blake2b_init outlen = some S) :
    S.buf = [] ∧ S.t0 = 0 ∧ S.t1 = 0 ∧ S.outlen = outlen := by
  unfold tinyblake_blake2b_init init_from_param at h
  split_ifs at h with h1 h2
  simp only [Option.some.injEq] at h
  rw [← h]
  exact ⟨rfl, rfl, rfl, rfl⟩

lemma update_fill_buflen (S : Blake2bState) (input : List Nat)
    (hS : S.buf.length ≤ 128) :
    (update_fill S input).1.buf.length ≤ 128 := by
  unfold update_fill
  split_ifs with h1 h2
  · simp
  · simp only []
    rw [List.length_append]
    omega
  · exact hS

lemma update_tail_buflen (T : Blake2bState) (rem : List Nat)
    (hT : T.buf.length ≤ 128) :
    (update_tail (T, rem)).buf.length ≤ 128 := by
  show (if 0 < (update_loop rem.length T rem).2.length then
      { (update_loop rem.length T rem).1 with
        buf := (update_loop rem.length T rem).2 }
    else (update_loop rem.length T rem).1).buf.length ≤ 128
  rw [update_loop_run _ _ _ (le_refl _)]
  split_ifs with h
  · simp only [List.length_drop]
    have := sub_nfull_le rem.length
    omega
  · rw [foldl_absorb_buf_field]
    exact hT

lemma update_some_buflen (S : Blake2bState) (input : List Nat)
    (S1 : Blake2bState) (h : tinyblake_blake2b_update S input = some S1) :
    S1.buf.length ≤ 128 := by
  unfold tinyblake_blake2b_update at h
  split_ifs at h with h1 h2
  · simp only [Option.some.injEq] at h
    rw [← h]
    omega
  · simp only [Option.some.injEq] at h
    rw [← h]
    exact update_tail_buflen _ _ (update_fill_buflen S input (by omega))

lemma init_from_param_buf (param : List Nat) (S : Blake2bState)
    (h : init_from_param param = some S) : S.buf = [] := by
  unfold init_from_param at h
  split_ifs at h
  simp only [Option.some.injEq] at h
  rw [← h]

lemma update_isSome (S : Blake2bState) (c : List Nat)
    (h : S.buf.length ≤ 128) : ∃ S1, tinyblake_blake2b_update S c = some S1 := by
  unfold tinyblake_blake2b_update
  rw [if_neg (by omega)]
  split_ifs
  · exact ⟨S, rfl⟩
  · exact ⟨_, rfl⟩

lemma final_some_iff (S : Blake2bState) (outcap : Nat) :
    (tinyblake_blake2b_final S outcap).isSome = true ↔ ¬ (outcap < S.outlen) := by
  unfold tinyblake_blake2b_final
  split_ifs with h <;> simp [h]

lemma final_wipes (S : Blake2bState) (outcap : Nat) (d : List Nat)
    (S1 : Blake2bState) (h : tinyblake_blake2b_final S outcap = some (d, S1)) :
    S1 = wipedState := by
  unfold tinyblake_blake2b_final at h
  split_ifs at h
  simp only [Option.some.injEq, Prod.mk.injEq] at h
  exact h.2.symm

/-! ### Claim theorems C4-C7 -/

/-- C4.  (i) Every counter advance adds `n` to `T0` modulo `2^64` and bumps
`T1` exactly when the addition wrapped (result below `n`), so the combined
128-bit value grows by `n` modulo `2^128`.  (ii) After init and any sequence
of updates, `T1·2^64 + T0` equals the number of bytes already passed to the
compression function — the total stream length minus the residual buffer
fill, which is `128 · nfull(total)` — reduced modulo `2^128`. -/
theorem counter_tracks_compressed_bytes :
    (∀ (S : Blake2bState) (n : Nat), S.t0 < 2 ^ 64 → S.t1 < 2 ^ 64 → n < 2 ^ 64 →
      (advanceT S n).t0 = (S.t0 + n) % 2 ^ 64 ∧
      (advanceT S n).t1 =
        (if (S.t0 + n) % 2 ^ 64 < n then (S.t1 + 1) % 2 ^ 64 else S.t1) ∧
      ((advanceT S n).t1 * 2 ^ 64 + (advanceT S n).t0) % 2 ^ 128 =
        (S.t1 * 2 ^ 64 + S.t0 + n) % 2 ^ 128) ∧
    (∀ (outlen : Nat) (chunks : List (List Nat)) (S S1 : Blake2bState),
      tinyblake_blake2b_init outlen = some S →
      updateChunks S chunks = some S1 →
      S1.t1 * 2 ^ 64 + S1.t0 =
        (chunks.flatten.length - S1.buf.length) % 2 ^ 128 ∧
      chunks.flatten.length - S1.buf.length =
        128 * nfull chunks.flatten.length) := by
  constructor
  · intro S n ht0 ht1 hn
    obtain ⟨b0, b1, hmod⟩ := advanceT_counter S n ht0 ht1 hn
    exact ⟨advanceT_t0 S n, advanceT_t1 S n, hmod⟩
  · intro outlen chunks S S1 hinit hupd
    obtain ⟨hbuf, ht0, ht1, _⟩ := init_fields outlen S hinit
    rw [← mkFrom_self S hbuf, updateChunks_mkFrom] at hupd
    simp only [Option.some.injEq, List.nil_append] at hupd
    subst hupd
    obtain ⟨f0, f1, fmod⟩ :=
      foldl_absorb_counter
        (toBlocksN (nfull chunks.flatten.length) chunks.flatten) S
        (by rw [ht0]; unfold M64; positivity)
        (by rw [ht1]; unfold M64; positivity)
    rw [ht0, ht1, toBlocksN_length] at fmod
    have hb := mkFrom_buf_len S chunks.flatten
    have hle := nfull_mul_le chunks.flatten.length
    have e0 : (mkFrom S chunks.flatten).t0 =
        ((toBlocksN (nfull chunks.flatten.length) chunks.flatten).foldl
          absorb S).t0 := rfl
    have e1 : (mkFrom S chunks.flatten).t1 =
        ((toBlocksN (nfull chunks.flatten.length) chunks.flatten).foldl
          absorb S).t1 := rfl
    rw [e0, e1, hb]
    unfold M64 at f0 f1
    constructor <;> omega

/-- Witness for C4: the advance mechanism at a wrapping counter, and the
boundary invariant after init(64) and two one-byte updates. -/
theorem counter_tracks_compressed_bytes_witness :
    ((advanceT ⟨[], 2 ^ 64 - 1, 3, [], 0⟩ 7).t0 = (2 ^ 64 - 1 + 7) % 2 ^ 64 ∧
      (advanceT ⟨[], 2 ^ 64 - 1, 3, [], 0⟩ 7).t1 =
        (if (2 ^ 64 - 1 + 7) % 2 ^ 64 < 7 then (3 + 1) % 2 ^ 64 else 3) ∧
      ((advanceT ⟨[], 2 ^ 64 - 1, 3, [], 0⟩ 7).t1 * 2 ^ 64 +
          (advanceT ⟨[], 2 ^ 64 - 1, 3, [], 0⟩ 7).t0) % 2 ^ 128 =
        (3 * 2 ^ 64 + (2 ^ 64 - 1) + 7) % 2 ^ 128) ∧
    ((⟨[7640891576939301192, 13503953896175478587, 4354685564936845355,
          11912009170470909681, 5840696475078001361, 11170449401992604703,
          2270897969802886507, 6620516959819538809], 0, 0, [0x61, 0x62], 64⟩ :
        Blake2bState).t1 * 2 ^ 64 +
        (⟨[7640891576939301192, 13503953896175478587, 4354685564936845355,
            11912009170470909681, 5840696475078001361, 11170449401992604703,
            2270897969802886507, 6620516959819538809], 0, 0, [0x61, 0x62], 64⟩ :
          Blake2bState).t0 =
      (([[0x61], [0x62]] : List (List Nat)).flatten.length -
          (⟨[7640891576939301192, 13503953896175478587, 4354685564936845355,
              11912009170470909681, 5840696475078001361, 11170449401992604703,
              2270897969802886507, 6620516959819538809], 0, 0, [0x61, 0x62], 64⟩ :
            Blake2bState).buf.length) % 2 ^ 128 ∧
      ([[0x61], [0x62]] : List (List Nat)).flatten.length -
          (⟨[7640891576939301192, 13503953896175478587, 4354685564936845355,
              11912009170470909681, 5840696475078001361, 11170449401992604703,
              2270897969802886507, 6620516959819538809], 0, 0, [0x61, 0x62], 64⟩ :
            Blake2bState).buf.length =
        128 * nfull ([[0x61], [0x62]] : List (List Nat)).flatten.length) :=
  ⟨counter_tracks_compressed_bytes.1 ⟨[], 2 ^ 64 - 1, 3, [], 0⟩ 7
      (by decide) (by decide) (by decide),
    counter_tracks_compressed_bytes.2 64 [[0x61], [0x62]]
      ⟨[7640891576939301192, 13503953896175478587, 4354685564936845355,
          11912009170470909681, 5840696475078001361, 11170449401992604703,
          2270897969802886507, 6620516959819538809], 0, 0, [], 64⟩
      ⟨[7640891576939301192, 13503953896175478587, 4354685564936845355,
          11912009170470909681, 5840696475078001361, 11170449401992604703,
          2270897969802886507, 6620516959819538809], 0, 0, [0x61, 0x62], 64⟩
      (by decide) (by decide)⟩

set_option maxRecDepth 100000 in
/-- C5 counterexample.  The claim's "buflen < 128 unless the next operation
performed on the state is a final" is false on the code: init(64) followed by
an update of exactly 128 bytes leaves `buflen = 128` (the `while` loop bound
`inlen > 128` is strict, so the full block is buffered, not compressed), and
the next operation can be another update, which succeeds — no final is
required. -/
theorem buffer_full_then_update_succeeds :
    ((tinyblake_blake2b_init 64).bind fun S =>
        tinyblake_blake2b_update S (List.replicate 128 0x41)) =
      some ⟨[7640891576939301192, 13503953896175478587, 4354685564936845355,
          11912009170470909681, 5840696475078001361, 11170449401992604703,
          2270897969802886507, 6620516959819538809], 0, 0,
          List.replicate 128 0x41, 64⟩ ∧
      (⟨[7640891576939301192, 13503953896175478587, 4354685564936845355,
          11912009170470909681, 5840696475078001361, 11170449401992604703,
          2270897969802886507, 6620516959819538809], 0, 0,
          List.replicate 128 0x41, 64⟩ : Blake2bState).buf.length = 128 ∧
      (tinyblake_blake2b_update
        ⟨[7640891576939301192, 13503953896175478587, 4354685564936845355,
            11912009170470909681, 5840696475078001361, 11170449401992604703,
            2270897969802886507, 6620516959819538809], 0, 0,
            List.replicate 128 0x41, 64⟩ [0x42]).isSome = true := by
  refine ⟨by decide, by decide, by decide⟩

/-- C5 amended.  Every init, update, and final operation preserves
`buflen ≤ 128` at API boundaries: plain and parameter init leave `buflen = 0`,
keyed init leaves the padded key block (`buflen ≤ 128`, exactly 128 when no
message follows yet), every successful update leaves `buflen ≤ 128`, and a
successful final wipes the state (`buflen = 0`).  `buflen = 128` is reachable
— an update ending exactly on the block boundary buffers the full block — and
such a state is *not* reserved for final: both a further update and a final
succeed on any state within the bound. -/
theorem residual_buffer_bounds :
    (∀ (outlen : Nat) (S : Blake2bState),
        tinyblake_blake2b_init outlen = some S → S.buf.length = 0) ∧
    (∀ (param : List Nat) (S : Blake2bState),
        tinyblake_blake2b_init_param param = some S → S.buf.length = 0) ∧
    (∀ (outlen : Nat) (key : List Nat) (S : Blake2bState),
        tinyblake_blake2b_init_key outlen key = some S → S.buf.length ≤ 128) ∧
    (∀ (S : Blake2bState) (input : List Nat) (S1 : Blake2bState),
        tinyblake_blake2b_update S input = some S1 → S1.buf.length ≤ 128) ∧
    (∀ (S : Blake2bState) (outcap : Nat) (d : List Nat) (S1 : Blake2bState),
        tinyblake_blake2b_final S outcap = some (d, S1) → S1.buf.length = 0) ∧
    (∀ (S : Blake2bState) (input : List Nat), S.buf.length ≤ 128 →
        (tinyblake_blake2b_update S input).isSome = true) ∧
    (∀ (S : Blake2bState) (outcap : Nat), S.outlen ≤ outcap →
        (tinyblake_blake2b_final S outcap).isSome = true) := by
  refine ⟨?_, ?_, ?_, ?_, ?_, ?_, ?_⟩
  · intro outlen S h
    rw [(init_fields outlen S h).1]
    rfl
  · intro param S h
    rw [init_from_param_buf param S h]
    rfl
  · intro outlen key S h
    unfold tinyblake_blake2b_init_key at h
    split_ifs at h
    cases hi : init_from_param (build_default_param outlen key.length) with
    | none => rw [hi] at h; exact absurd h (by simp)
    | some T =>
      rw [hi, Option.some_bind] at h
      exact update_some_buflen T _ S h
  · exact update_some_buflen
  · intro S outcap d S1 h
    rw [final_wipes S outcap d S1 h]
    rfl
  · intro S input h
    obtain ⟨S1, h1⟩ := update_isSome S input h
    rw [h1]
    rfl
  · intro S outcap h
    exact (final_some_iff S outcap).mpr (by omega)

set_option maxRecDepth 100000 in
/-- Witness for the amended C5: a successful update bound at a concrete call,
and both a further update and a final succeeding on a state whose buffer holds
a full 128-byte block. -/
theorem residual_buffer_bounds_witness :
    ((⟨List.replicate 8 0, 0, 0, [0x41, 0x42], 7⟩ : Blake2bState).buf.length
        ≤ 128) ∧
      (tinyblake_blake2b_update
        ⟨List.replicate 8 0, 0, 0, List.replicate 128 0x41, 64⟩
        [0x42]).isSome = true ∧
      (tinyblake_blake2b_final
        ⟨List.replicate 8 0, 0, 0, List.replicate 128 0x41, 64⟩
        64).isSome = true :=
  ⟨residual_buffer_bounds.2.2.2.1 ⟨List.replicate 8 0, 0, 0, [], 7⟩
      [0x41, 0x42] ⟨List.replicate 8 0, 0, 0, [0x41, 0x42], 7⟩ (by decide),
    residual_buffer_bounds.2.2.2.2.2.1
      ⟨List.replicate 8 0, 0, 0, List.replicate 128 0x41, 64⟩ [0x42]
      (by decide),
    residual_buffer_bounds.2.2.2.2.2.2
      ⟨List.replicate 8 0, 0, 0, List.replicate 128 0x41, 64⟩ 64 (by decide)⟩

set_option maxRecDepth 100000 in
/-- C6 counterexample.  A successful final wipes the state to all-zero
(`wipedState`); a subsequent `tinyblake_blake2b_update` with non-zero input on
that state *succeeds* (returns 0) instead of failing with `InvalidState`: the
zeroed buffer length passes the only state guard in the source. -/
theorem update_after_final_succeeds :
    ((tinyblake_blake2b_init 64).bind fun S =>
        tinyblake_blake2b_final S 64).map Prod.snd = some wipedState ∧
      (tinyblake_blake2b_update wipedState [0x61]).isSome = true := by
  constructor
  · decide
  · decide

/-- C6 amended.  After final wipes the state, operations do not fail with an
`InvalidState` error: update succeeds for every input (treating the wiped
state as a zeroed state), and another final succeeds, emitting zero output
bytes (the wiped digest length is 0). -/
theorem consumed_state_ops_succeed :
    (∀ c : List Nat, (tinyblake_blake2b_update wipedState c).isSome = true) ∧
    (∀ outcap : Nat,
      (tinyblake_blake2b_final wipedState outcap).map Prod.fst = some []) := by
  constructor
  · intro c
    unfold tinyblake_blake2b_update
    rw [if_neg (by simp [wipedState])]
    split_ifs <;> rfl
  · intro outcap
    unfold tinyblake_blake2b_final
    split_ifs with h
    · exact absurd h (by simp [wipedState])
    · rfl

/-- C7.  `tinyblake_blake2b_final` with an output capacity below the
configured digest length fails before mutating anything (in this pure
embedding the input state is untouched by construction), emits no bytes, and
a subsequent final with sufficient capacity produces exactly the digest the
state determines (the result does not depend on the capacity once it is
sufficient). -/
theorem final_rejects_short_output (S : Blake2bState) (outcap : Nat) :
    (outcap < S.outlen → tinyblake_blake2b_final S outcap = none) ∧
    (S.outlen ≤ outcap →
      tinyblake_blake2b_final S outcap = tinyblake_blake2b_final S S.outlen) := by
  constructor
  · intro h
    unfold tinyblake_blake2b_final
    rw [if_pos h]
  · intro h
    unfold tinyblake_blake2b_final
    rw [if_neg (by omega), if_neg (by omega)]

/-- Witness for C7 at a state with digest length 32: capacity 1 fails,
capacity 64 behaves like capacity 32. -/
theorem final_rejects_short_output_witness :
    tinyblake_blake2b_final ⟨List.replicate 8 0, 0, 0, [], 32⟩ 1 = none ∧
      tinyblake_blake2b_final ⟨List.replicate 8 0, 0, 0, [], 32⟩ 64 =
        tinyblake_blake2b_final ⟨List.replicate 8 0, 0, 0, [], 32⟩ 32 :=
  ⟨(final_rejects_short_output ⟨List.replicate 8 0, 0, 0, [], 32⟩ 1).1
      (by decide),
    (final_rejects_short_output ⟨List.replicate 8 0, 0, 0, [], 32⟩ 64).2
      (by decide)⟩

/-! ### HMAC-BLAKE2b-512 (`src/src/hmac.cpp`) -/

@[ext]
structure HmacState where
  inner : Blake2bState
  outer : Blake2bState
  deriving DecidableEq, Repr

/-- `derive_pads` from `hmac.cpp`: the key is zero-padded to the 128-byte
block (hashed down to 64 bytes first when longer than a block), then xored
bytewise with `0x36` (ipad) and `0x5C` (opad). -/
def derive_pads (key : List Nat) : Option (List Nat × List Nat) :=
  (if key.length > 128 then
      (tinyblake_blake2b 64 key []).map fun d =>
        d ++ List.replicate (128 - d.length) 0
    else some (key ++ List.replicate (128 - key.length) 0)).map fun keybuf =>
    (keybuf.map fun x => x ^^^ 0x36, keybuf.map fun x => x ^^^ 0x5C)

/-- `tinyblake_hmac_init`: reject an empty key, then seed the inner state
with one ipad block and the outer state with one opad block.  The null-key
guard coincides with the empty-key guard in this embedding. -/
def tinyblake_hmac_init (key : List Nat) : Option HmacState :=
  if key.length = 0 then none
  else
    (derive_pads key).bind fun pads =>
      (tinyblake_blake2b_init 64).bind fun i0 =>
        (tinyblake_blake2b_update i0 pads.1).bind fun inn =>
          (tinyblake_blake2b_init 64).bind fun o0 =>
            (tinyblake_blake2b_update o0 pads.2).map fun outr =>
              ⟨inn, outr⟩

/-- `tinyblake_hmac_update`: forward to the inner state. -/
def tinyblake_hmac_update (S : HmacState) (input : List Nat) :
    Option HmacState :=
  (tinyblake_blake2b_update S.inner input).map fun inn => { S with inner := inn }

/-- `tinyblake_hmac_final`: reject capacities below 64, finalise the inner
hash, absorb it into the outer state, finalise the outer state. -/
def tinyblake_hmac_final (S : HmacState) (outcap : Nat) : Option (List Nat) :=
  if outcap < 64 then none
  else
    (tinyblake_blake2b_final S.inner 64).bind fun ih =>
      (tinyblake_blake2b_update S.outer ih.1).bind fun outr =>
        (tinyblake_blake2b_final outr outcap).map Prod.fst

/-- `tinyblake_hmac`, the one-shot MAC. -/
def tinyblake_hmac (outcap : Nat) (key msg : List Nat) : Option (List Nat) :=
  (tinyblake_hmac_init key).bind fun S =>
    (tinyblake_hmac_update S msg).bind fun S1 =>
      tinyblake_hmac_final S1 outcap

/-- `key_pad_` as filled by the C++ `hmac::hasher` constructor: the key
zero-padded to 128 bytes, or BLAKE2b-512 of the key zero-padded when the key
is longer than one block.  `reset()` re-runs `tinyblake_hmac_init` on this
128-byte block. -/
def processed_key (key : List Nat) : List Nat :=
  if key.length > 128 then
    (tinyblake_blake2b 64 key []).getD [] ++
      List.replicate (128 - ((tinyblake_blake2b 64 key []).getD []).length) 0
  else key ++ List.replicate (128 - key.length) 0

/-! ### Success lemmas for the BLAKE2b layer, feeding C8 and C10 -/

lemma update_fill_outlen (S : Blake2bState) (c : List Nat) :
    (update_fill S c).1.outlen = S.outlen := by
  unfold update_fill
  split_ifs <;> rfl

lemma update_tail_outlen (T : Blake2bState) (rem : List Nat) :
    (update_tail (T, rem)).outlen = T.outlen := by
  show (if 0 < (update_loop rem.length T rem).2.length then
      { (update_loop rem.length T rem).1 with
        buf := (update_loop rem.length T rem).2 }
    else (update_loop rem.length T rem).1).outlen = T.outlen
  rw [update_loop_run _ _ _ (le_refl _)]
  split_ifs with h
  · show ((toBlocksN (nfull rem.length) rem).foldl absorb T).outlen = T.outlen
    exact foldl_absorb_outlen_field _ _
  · exact foldl_absorb_outlen_field _ _

lemma update_outlen (S : Blake2bState) (c : List Nat) (S1 : Blake2bState)
    (h : tinyblake_blake2b_update S c = some S1) : S1.outlen = S.outlen := by
  unfold tinyblake_blake2b_update at h
  split_ifs at h
  · simp only [Option.some.injEq] at h
    rw [← h]
  · simp only [Option.some.injEq] at h
    rw [← h, show update_tail (update_fill S c) =
      update_tail ((update_fill S c).1, (update_fill S c).2) from rfl,
      update_tail_outlen, update_fill_outlen]

lemma digest64_length (hl : List Nat) :
    (((List.range 8).map fun i => store_le64 (hl.getD i 0)).flatten).length = 64 := by
  rw [show List.range 8 = [0, 1, 2, 3, 4, 5, 6, 7] from rfl]
  simp [store_le64]

lemma final_spec (S : Blake2bState) (outcap : Nat) (hcap : S.outlen ≤ outcap) :
    ∃ d, tinyblake_blake2b_final S outcap = some (d, wipedState) ∧
      d.length = min S.outlen 64 := by
  unfold tinyblake_blake2b_final
  rw [if_neg (by omega)]
  refine ⟨_, rfl, ?_⟩
  rw [List.length_take]
  have hd := digest64_length (compress_block (advanceT S S.buf.length)
    (S.buf ++ List.replicate (128 - S.buf.length) 0) true).h
  have ho : (compress_block (advanceT S S.buf.length)
      (S.buf ++ List.replicate (128 - S.buf.length) 0) true).outlen = S.outlen := rfl
  rw [hd, ho]

lemma mkFrom_outlen (S0 : Blake2bState) (P : List Nat) :
    (mkFrom S0 P).outlen = S0.outlen := by
  show ((toBlocksN (nfull P.length) P).foldl absorb S0).outlen = S0.outlen
  exact foldl_absorb_outlen_field _ _

lemma blake2b_unkeyed_some (outlen : Nat) (msg : List Nat) (h1 : 1 ≤ outlen)
    (h64 : outlen ≤ 64) :
    ∃ d, tinyblake_blake2b outlen msg [] = some d ∧ d.length = outlen := by
  obtain ⟨S, hS, hbuf⟩ := init_some outlen h1 h64
  obtain ⟨_, _, _, houtlen⟩ := init_fields outlen S hS
  unfold tinyblake_blake2b
  rw [if_neg (by simp), hS, Option.some_bind]
  rw [← mkFrom_self S hbuf, update_mkFrom, Option.some_bind]
  have hcap : (mkFrom S ([] ++ msg)).outlen ≤ outlen := by
    rw [mkFrom_outlen, houtlen]
  obtain ⟨d, hd, hdl⟩ := final_spec (mkFrom S ([] ++ msg)) outlen hcap
  refine ⟨d, ?_, ?_⟩
  · rw [hd]
    rfl
  · rw [hdl, mkFrom_outlen, houtlen]
    omega

lemma hmac_init_some (key : List Nat) (hk : key ≠ []) :
    ∃ S, tinyblake_hmac_init key = some S ∧ S.inner.outlen = 64 ∧
      S.outer.outlen = 64 ∧ S.inner.buf.length ≤ 128 ∧
      S.outer.buf.length ≤ 128 := by
  have hkl : ¬ (key.length = 0) := by simpa using hk
  obtain ⟨pads, hpads⟩ : ∃ p, derive_pads key = some p := by
    unfold derive_pads
    split_ifs with hlen
    · obtain ⟨d, hd, _⟩ := blake2b_unkeyed_some 64 key (by omega) (by omega)
      rw [hd]
      exact ⟨_, rfl⟩
    · exact ⟨_, rfl⟩
  obtain ⟨I, hI, hIbuf⟩ := init_some 64 (by omega) (by omega)
  obtain ⟨_, _, _, hIout⟩ := init_fields 64 I hI
  obtain ⟨inn, hinn⟩ := update_isSome I pads.1 (by rw [hIbuf]; simp)
  obtain ⟨outr, houtr⟩ := update_isSome I pads.2 (by rw [hIbuf]; simp)
  refine ⟨⟨inn, outr⟩, ?_, ?_, ?_, ?_, ?_⟩
  · unfold tinyblake_hmac_init
    rw [if_neg hkl]
    simp only [hpads, hI, hinn, houtr, Option.some_bind, Option.map_some']
  · show inn.outlen = 64
    rw [update_outlen I _ inn hinn, hIout]
  · show outr.outlen = 64
    rw [update_outlen I _ outr houtr, hIout]
  · exact update_some_buflen I _ inn hinn
  · exact update_some_buflen I _ outr houtr

lemma hmac_final_some (S : HmacState) (hio : S.inner.outlen = 64)
    (hoo : S.outer.outlen = 64) (hob : S.outer.buf.length ≤ 128) :
    ∃ d, tinyblake_hmac_final S 64 = some d ∧ d.length = 64 := by
  obtain ⟨ih, hih, hihl⟩ := final_spec S.inner 64 (by omega)
  obtain ⟨outr, houtr⟩ := update_isSome S.outer ih hob
  have hool : outr.outlen = 64 := by rw [update_outlen _ _ _ houtr, hoo]
  obtain ⟨d, hd, hdl⟩ := final_spec outr 64 (by omega)
  refine ⟨d, ?_, ?_⟩
  · unfold tinyblake_hmac_final
    rw [if_neg (by omega), hih, Option.some_bind,
      show ((ih, wipedState).1 : List Nat) = ih from rfl, houtr,
      Option.some_bind, hd]
    rfl
  · rw [hdl, hool, Nat.min_self]

lemma hmac_some (key msg : List Nat) (hk : key ≠ []) :
    ∃ d, tinyblake_hmac 64 key msg = some d ∧ d.length = 64 := by
  obtain ⟨S, hS, hio, hoo, hib, hob⟩ := hmac_init_some key hk
  obtain ⟨inn, hinn⟩ := update_isSome S.inner msg hib
  have hS1 : tinyblake_hmac_update S msg = some { S with inner := inn } := by
    unfold tinyblake_hmac_update
    rw [hinn]
    rfl
  obtain ⟨d, hd, hdl⟩ := hmac_final_some { S with inner := inn }
    (by show inn.outlen = 64; rw [update_outlen _ _ _ hinn, hio])
    (by show S.outer.outlen = 64; exact hoo)
    (by show S.outer.buf.length ≤ 128; exact hob)
  refine ⟨d, ?_, hdl⟩
  unfold tinyblake_hmac
  rw [hS, Option.some_bind, hS1, Option.some_bind, hd]

/-! ### PBKDF2-HMAC-BLAKE2b-512 (`src/src/pbkdf2.cpp`) -/

/-- `store_be32`: big-endian encoding of the 32-bit block index. -/
def store_be32 (v : Nat) : List Nat :=
  [v / 2 ^ 24 % 2 ^ 8, v / 2 ^ 16 % 2 ^ 8, v / 2 ^ 8 % 2 ^ 8, v % 2 ^ 8]

/-- The `for (j = 1; j < rounds; ++j)` loop of `tinyblake_pbkdf2`, carrying
the `(u, t)` register pair; called with `rounds - 1` iterations. -/
def pbkdf2_inner (password : List Nat) :
    Nat → List Nat × List Nat → Option (List Nat × List Nat)
  | 0, ut => some ut
  | j + 1, ut =>
    (tinyblake_hmac 64 password ut.1).bind fun u2 =>
      pbkdf2_inner password j (u2, List.zipWith (fun a b => a ^^^ b) ut.2 u2)

/-- One block of `tinyblake_pbkdf2`:
`F(P, S, c, i) = U1 ^ U2 ^ ... ^ Uc` with `U1 = HMAC(P, S || INT_32_BE(i))`. -/
def pbkdf2_F (password salt : List Nat) (rounds idx : Nat) :
    Option (List Nat) :=
  (tinyblake_hmac 64 password (salt ++ store_be32 idx)).bind fun u1 =>
    (pbkdf2_inner password (rounds - 1) (u1, u1)).map Prod.snd

/-- The `while (dk_remaining > 0)` loop of `tinyblake_pbkdf2`, as the
concatenation of `b` consecutive 64-byte blocks starting at index `idx`
(the final `take outlen` trims the last block, matching `cplen`). -/
def pbkdf2_blocks (password salt : List Nat) (rounds : Nat) :
    Nat → Nat → Option (List Nat)
  | 0, _ => some []
  | b + 1, idx =>
    (pbkdf2_F password salt rounds idx).bind fun t =>
      (pbkdf2_blocks password salt rounds b (idx + 1)).map fun rest => t ++ rest

/-- `tinyblake_pbkdf2`: argument validation exactly as in the source, then
`ceil(outlen / 64)` blocks with indices from 1. -/
def tinyblake_pbkdf2 (outlen : Nat) (password salt : List Nat) (rounds : Nat) :
    Option (List Nat) :=
  if outlen = 0 then none
  else if rounds = 0 then none
  else if outlen > (2 ^ 32 - 1) * 64 then none
  else
    (pbkdf2_blocks password salt rounds ((outlen + 63) / 64) 1).map
      (List.take outlen)

lemma pbkdf2_inner_some (password : List Nat) (hk : password ≠ []) :
    ∀ (j : Nat) (ut : List Nat × List Nat),
      ∃ r, pbkdf2_inner password j ut = some r := by
  intro j
  induction j with
  | zero => exact fun ut => ⟨ut, rfl⟩
  | succ j ih =>
    intro ut
    obtain ⟨u2, hu2, _⟩ := hmac_some password ut.1 hk
    obtain ⟨r, hr⟩ := ih (u2, List.zipWith (fun a b => a ^^^ b) ut.2 u2)
    refine ⟨r, ?_⟩
    show (tinyblake_hmac 64 password ut.1).bind _ = some r
    rw [hu2, Option.some_bind, hr]

lemma pbkdf2_F_some (password salt : List Nat) (rounds idx : Nat)
    (hk : password ≠ []) : ∃ t, pbkdf2_F password salt rounds idx = some t := by
  obtain ⟨u1, hu1, _⟩ := hmac_some password (salt ++ store_be32 idx) hk
  obtain ⟨r, hr⟩ := pbkdf2_inner_some password hk (rounds - 1) (u1, u1)
  refine ⟨r.2, ?_⟩
  unfold pbkdf2_F
  rw [hu1, Option.some_bind, hr]
  rfl

lemma pbkdf2_blocks_some (password salt : List Nat) (rounds : Nat)
    (hk : password ≠ []) :
    ∀ (b idx : Nat), ∃ r, pbkdf2_blocks password salt rounds b idx = some r := by
  intro b
  induction b with
  | zero => exact fun idx => ⟨[], rfl⟩
  | succ b ih =>
    intro idx
    obtain ⟨t, ht⟩ := pbkdf2_F_some password salt rounds idx hk
    obtain ⟨r, hr⟩ := ih (idx + 1)
    refine ⟨t ++ r, ?_⟩
    show (pbkdf2_F password salt rounds idx).bind _ = some (t ++ r)
    rw [ht, Option.some_bind, hr]
    rfl

/-! ### Claim theorems C8 and C10 -/

/-- C8.  `tinyblake_pbkdf2` fails exactly when `outlen = 0`, `rounds = 0`,
`outlen > (2^32 - 1)·64`, or the underlying HMAC init fails — which in this
embedding happens exactly for the empty (null) password; every other argument
combination succeeds. -/
theorem pbkdf2_error_conditions (outlen : Nat) (password salt : List Nat)
    (rounds : Nat) :
    tinyblake_pbkdf2 outlen password salt rounds = none ↔
      (outlen = 0 ∨ rounds = 0 ∨ outlen > (2 ^ 32 - 1) * 64 ∨ password = []) := by
  unfold tinyblake_pbkdf2
  split_ifs with h1 h2 h3
  · exact iff_of_true rfl (Or.inl h1)
  · exact iff_of_true rfl (Or.inr (Or.inl h2))
  · exact iff_of_true rfl (Or.inr (Or.inr (Or.inl h3)))
  · rcases eq_or_ne password [] with rfl | hp
    · obtain ⟨b, hb⟩ : ∃ b, (outlen + 63) / 64 = b + 1 :=
        ⟨(outlen + 63) / 64 - 1, by omega⟩
      rw [hb]
      show ((pbkdf2_F [] salt rounds 1).bind _).map (List.take outlen) = none ↔ _
      rw [show pbkdf2_F [] salt rounds 1 = none from rfl]
      simp
    · obtain ⟨r, hr⟩ :=
        pbkdf2_blocks_some password salt rounds hp ((outlen + 63) / 64) 1
      rw [hr]
      simp [h1, h2, h3, hp]
      omega

lemma processed_key_length (key : List Nat) :
    key.length > 128 → (processed_key key).length =
      ((tinyblake_blake2b 64 key []).getD []).length +
        (128 - ((tinyblake_blake2b 64 key []).getD []).length) := by
  intro h
  unfold processed_key
  rw [if_pos h]
  simp

/-- C10.  The 128-byte processed key block stored by the C++ `hmac::hasher`
constructor (the key zero-padded, or its BLAKE2b-512 digest zero-padded for
keys longer than one block) derives exactly the same ipad/opad as the
original key, so `reset()` — which re-initialises from that block — produces
the same MAC as a freshly constructed hasher with the original key, for every
message. -/
theorem hmac_reset_matches_fresh (key msg : List Nat) (hk : key ≠ []) :
    derive_pads (processed_key key) = derive_pads key ∧
      tinyblake_hmac 64 (processed_key key) msg = tinyblake_hmac 64 key msg := by
  by_cases hlen : key.length > 128
  · obtain ⟨d, hd, hdl⟩ := blake2b_unkeyed_some 64 key (by omega) (by omega)
    have hpk_eq : processed_key key = d ++ List.replicate 64 0 := by
      unfold processed_key
      rw [if_pos hlen, hd]
      simp [hdl]
    have hlen2 : (processed_key key).length = 128 := by
      rw [hpk_eq]
      simp [hdl]
    have hpads : derive_pads (processed_key key) = derive_pads key := by
      unfold derive_pads
      rw [if_neg (by omega), if_pos hlen, hd, hpk_eq]
      simp [hdl]
    refine ⟨hpads, ?_⟩
    unfold tinyblake_hmac tinyblake_hmac_init
    rw [if_neg (by omega), if_neg (by simpa using hk), hpads]
  · have hpk_eq : processed_key key = key ++ List.replicate (128 - key.length) 0 := by
      unfold processed_key
      rw [if_neg hlen]
    have hlen2 : (processed_key key).length = 128 := by
      rw [hpk_eq]
      simp
      omega
    have hpads : derive_pads (processed_key key) = derive_pads key := by
      unfold derive_pads
      rw [if_neg (by omega), if_neg hlen, hpk_eq]
      have : (128 : Nat) - (key ++ List.replicate (128 - key.length) 0).length = 0 := by
        rw [← hpk_eq, hlen2]
      rw [this]
      simp
    refine ⟨hpads, ?_⟩
    unfold tinyblake_hmac tinyblake_hmac_init
    rw [if_neg (by omega), if_neg (by simpa using hk), hpads]

/-- Witness for C10 with a 3-byte key and short message. -/
theorem hmac_reset_matches_fresh_witness :
    derive_pads (processed_key [1, 2, 3]) = derive_pads [1, 2, 3] ∧
      tinyblake_hmac 64 (processed_key [1, 2, 3]) [4, 5] =
        tinyblake_hmac 64 [1, 2, 3] [4, 5] :=
  hmac_reset_matches_fresh [1, 2, 3] [4, 5] (by decide)

/-! ### Constant-time equality (`src/src/secure_zero.cpp`, claim C9) -/

/-- `tinyblake_constant_time_eq`: OR-accumulate the bytewise xors over all
`len` positions (each xor truncated to a byte, as by the `uint8_t` cast in
the source), then compare the accumulator with zero once at the end. -/
def tinyblake_constant_time_eq (a b : List Nat) (len : Nat) : Nat :=
  if (List.range len).foldl
      (fun d i => d ||| (a.getD i 0 ^^^ b.getD i 0) % 2 ^ 8) 0 = 0
  then 1 else 0

lemma or_eq_zero_iff (x y : Nat) : x ||| y = 0 ↔ x = 0 ∧ y = 0 := by
  constructor
  · intro h
    refine ⟨Nat.zero_of_testBit_eq_false fun i => ?_,
      Nat.zero_of_testBit_eq_false fun i => ?_⟩
    · have hb := congrArg (fun z => z.testBit i) h
      simp only [Nat.testBit_or, Nat.zero_testBit, Bool.or_eq_false_iff] at hb
      exact hb.1
    · have hb := congrArg (fun z => z.testBit i) h
      simp only [Nat.testBit_or, Nat.zero_testBit, Bool.or_eq_false_iff] at hb
      exact hb.2
  · rintro ⟨rfl, rfl⟩
    rfl

lemma foldl_or_zero (f : Nat → Nat) (n d : Nat) :
    ((List.range n).foldl (fun acc i => acc ||| f i) d = 0 ↔
      d = 0 ∧ ∀ i < n, f i = 0) := by
  induction n with
  | zero => simp
  | succ n ih =>
    rw [List.range_succ, List.foldl_append, List.foldl_cons, List.foldl_nil,
      or_eq_zero_iff, ih]
    constructor
    · rintro ⟨⟨hd, hall⟩, hfn⟩
      refine ⟨hd, fun i hi => ?_⟩
      by_cases hin : i < n
      · exact hall i hin
      · have : i = n := by omega
        subst this
        exact hfn
    · rintro ⟨hd, hall⟩
      exact ⟨⟨hd, fun i hi => hall i (by omega)⟩, hall n (by omega)⟩

/-- C9.  `tinyblake_constant_time_eq` returns 1 for length 0 whatever the
buffers hold, and on two byte lists of length `n` it returns 1 exactly when
they are equal. -/
theorem constant_time_eq_correct :
    (∀ a b : List Nat, tinyblake_constant_time_eq a b 0 = 1) ∧
    (∀ (n : Nat) (a b : List Nat), a.length = n → b.length = n →
      (∀ x ∈ a, x < 2 ^ 8) → (∀ x ∈ b, x < 2 ^ 8) →
      (tinyblake_constant_time_eq a b n = 1 ↔ a = b)) := by
  constructor
  · intro a b
    rfl
  · intro n a b ha hb hA hB
    have hiff : ((List.range n).foldl
        (fun d i => d ||| (a.getD i 0 ^^^ b.getD i 0) % 2 ^ 8) 0 = 0) ↔
        a = b := by
      rw [foldl_or_zero]
      constructor
      · rintro ⟨-, hall⟩
        refine List.ext_getElem (by omega) fun i h1 h2 => ?_
        have hx := hall i (by omega)
        rw [List.getD_eq_getElem a 0 h1, List.getD_eq_getElem b 0 h2] at hx
        have hlt : a[i] ^^^ b[i] < 2 ^ 8 :=
          Nat.xor_lt_two_pow (hA _ (List.getElem_mem h1))
            (hB _ (List.getElem_mem h2))
        rw [Nat.mod_eq_of_lt hlt] at hx
        exact Nat.xor_eq_zero.mp hx
      · rintro rfl
        exact ⟨rfl, fun i hi => by simp⟩
    unfold tinyblake_constant_time_eq
    split_ifs with h
    · exact iff_of_true rfl (hiff.mp h)
    · exact iff_of_false (by decide) fun hab => h (hiff.mpr hab)

/-- Witness for C9: length 0 on unequal buffers, and length 2 on equal and
unequal byte pairs. -/
theorem constant_time_eq_correct_witness :
    tinyblake_constant_time_eq [9] [7] 0 = 1 ∧
      (tinyblake_constant_time_eq [1, 2] [1, 3] 2 = 1 ↔
        ([1, 2] : List Nat) = [1, 3]) :=
  ⟨constant_time_eq_correct.1 [9] [7],
    constant_time_eq_correct.2 2 [1, 2] [1, 3] (by decide) (by decide)
      (by decide) (by decide)⟩

end Tinyblake
